import Mathlib

/-!
Shallow embedding of the incremental file-stream parser, file registry,
preview bundler and export path of the repository (CodeBlock.tsx, App.tsx,
geminiService).  Strings are modelled as `List Char`; the JavaScript regex
scans are modelled by explicit character-level scanners with the same
semantics.
-/

namespace AppSpec

/-- The literal `<file name="` that opens a file record in the pseudo-XML
stream format (from the regexes in `CodeBlock.tsx`). -/
def openLit : List Char := "<file name=\"".toList

/-- The literal `</file>` closing a file record. -/
def closeLit : List Char := "</file>".toList

/-- Match a literal at the start of the input: if `s = pat ++ r`, return
`some r`, else `none`. -/
def chopLit : List Char → List Char → Option (List Char)
  | [], s => some s
  | _ :: _, [] => none
  | p :: ps, c :: cs => if c = p then chopLit ps cs else none

/-- Split at the first occurrence of the character `ch`:
`breakAtChar ch s = some (a, b)` when `s = a ++ ch :: b` and `ch ∉ a`
(the behaviour of the regex fragment matching up to a delimiter). -/
def breakAtChar (ch : Char) : List Char → Option (List Char × List Char)
  | [] => none
  | c :: cs =>
    if c = ch then some ([], cs)
    else
      match breakAtChar ch cs with
      | some (a, b) => some (c :: a, b)
      | none => none

/-- Split at the first occurrence of the substring `pat` (the behaviour of a
lazy `[\s\S]*?` up to a literal): `some (a, b)` with `s = a ++ pat ++ b`,
first occurrence. -/
def breakAtSub (pat : List Char) : List Char → Option (List Char × List Char)
  | [] =>
    match chopLit pat [] with
    | some r => some ([], r)
    | none => none
  | c :: cs =>
    match chopLit pat (c :: cs) with
    | some r => some ([], r)
    | none =>
      match breakAtSub pat cs with
      | some (a, b) => some (c :: a, b)
      | none => none

/-- Attempt to match the complete-record regex
`<file name="([^"]+)">([\s\S]*?)<\/file>` anchored at the start of `s`.
Returns `(name, body, rest)` where `rest` is the input after the closing
literal.  Mirrors the JS engine: the name is the (nonempty) run of
non-quote characters before the first `"`, which must be followed by `>`;
the body is everything up to the first `</file>`. -/
def matchFileAt (s : List Char) : Option (List Char × List Char × List Char) :=
  match chopLit openLit s with
  | none => none
  | some r1 =>
    match breakAtChar '"' r1 with
    | none => none
    | some (nm, r2) =>
      if nm = [] then none
      else
        match chopLit ['>'] r2 with
        | none => none
        | some r3 =>
          match breakAtSub closeLit r3 with
          | none => none
          | some (body, rest) => some (nm, body, rest)

/-- All complete-record matches of the buffer in order, as produced by
`content.matchAll(fileRegex)`: try a match at every position from left to
right, resuming after the end of each match.  Fuel-based so that the
definition is structural (any fuel at least `s.length` gives the scan's
value). -/
def scanMatches : Nat → List Char → List (List Char × List Char)
  | 0, _ => []
  | _ + 1, [] => []
  | fuel + 1, c :: cs =>
    match matchFileAt (c :: cs) with
    | some (nm, body, rest) => (nm, body) :: scanMatches fuel rest
    | none => scanMatches fuel cs

/-- The suffix of the buffer after the end of the last complete match
(`content.slice(lastMatchIndex)`); `none` when there is no match at all
(so that the caller falls back to the whole buffer). -/
def lastRest : Nat → List Char → Option (List Char)
  | 0, _ => none
  | _ + 1, [] => none
  | fuel + 1, c :: cs =>
    match matchFileAt (c :: cs) with
    | some (_, _, rest) => some ((lastRest fuel rest).getD rest)
    | none => lastRest fuel cs

/-- The complete-record scan of a buffer (canonical fuel). -/
def scanBuf (s : List Char) : List (List Char × List Char) :=
  scanMatches s.length s

/-- The remainder of a buffer after its last complete match (the whole
buffer when there is none), mirroring `lastMatchIndex` in the source. -/
def remBuf (s : List Char) : List Char :=
  (lastRest s.length s).getD s

/-- Attempt to match the partial-record regex
`<file name="([^"]+)">([\s\S]*?)$` anchored at the start of `s`: an opening
marker with a nonempty name; the body is the whole rest of the input (the
lazy group runs to the `$` anchor). -/
def matchOpenAt (s : List Char) : Option (List Char × List Char) :=
  match chopLit openLit s with
  | none => none
  | some r1 =>
    match breakAtChar '"' r1 with
    | none => none
    | some (nm, r2) =>
      if nm = [] then none
      else
        match chopLit ['>'] r2 with
        | none => none
        | some r3 => some (nm, r3)

/-- Leftmost match of the partial-record regex over the remainder
(`remainingContent.match(partialRegex)`). -/
def findOpen : List Char → Option (List Char × List Char)
  | [] => none
  | c :: cs =>
    match matchOpenAt (c :: cs) with
    | some r => some r
    | none => findOpen cs

/-- The whitespace class relevant to `String.prototype.trim` on the ASCII
content produced here. -/
def isJsSpace (c : Char) : Bool :=
  c = ' ' || c = '\t' || c = '\n' || c = '\r'

/-- `String.prototype.trim`: drop whitespace from both ends. -/
def jsTrim (s : List Char) : List Char :=
  ((s.dropWhile isJsSpace).reverse.dropWhile isJsSpace).reverse

/-- `String.prototype.split` on a single-character separator (used with
`'/'` for path parts and `'.'` for the extension). -/
def splitOnChar (ch : Char) : List Char → List (List Char)
  | [] => [[]]
  | c :: cs =>
    let r := splitOnChar ch cs
    if c = ch then [] :: r
    else
      match r with
      | [] => [[c]]
      | a :: rest => (c :: a) :: rest

/-- `fullPath.split('.').pop() || 'txt'`: the last component of the path
split at `'.'`, with the `'txt'` fallback exactly when that component is
the empty string (the only falsy value `pop` can yield here, since `split`
never returns an empty array). -/
def languageOf (nm : List Char) : List Char :=
  match (splitOnChar '.' nm).getLast? with
  | some l => if l = [] then "txt".toList else l
  | none => "txt".toList

/-- A parsed virtual file as built by the streaming `CodeBlock` component.
`isComplete` records which branch produced the record: `true` for a
`fileRegex` (closed) match, `false` for the trailing `partialRegex` (open)
record. -/
structure ParsedFile where
  name : List Char
  path : List (List Char)
  content : List Char
  language : List Char
  isComplete : Bool
deriving DecidableEq, Repr

/-- The record built for a complete match: content trimmed. -/
def mkComplete (nm body : List Char) : ParsedFile :=
  { name := nm
    path := splitOnChar '/' nm
    content := jsTrim body
    language := languageOf nm
    isComplete := true }

/-- The record built for the trailing open match: raw, untrimmed content. -/
def mkOpen (nm body : List Char) : ParsedFile :=
  { name := nm
    path := splitOnChar '/' nm
    content := body
    language := languageOf nm
    isComplete := false }

/-- The parse pass of the streaming `CodeBlock` `useEffect` (lines 195-254):
all complete records, and — when `isStreaming` — one more open record
found in the remainder after the last complete match.  The empty buffer is
handled by the `if (!content)` guard before any parsing. -/
def parseFiles (content : List Char) (isStreaming : Bool) : List ParsedFile :=
  if content = [] then []
  else
    let parsed := (scanBuf content).map (fun p => mkComplete p.1 p.2)
    if isStreaming then
      match findOpen (remBuf content) with
      | some (nm, body) => parsed ++ [mkOpen nm body]
      | none => parsed
    else parsed

/-- The component state relevant to the parse `useEffect`: the file list and
the currently active (selected) file.  `activeFile` holds a `ParsedFile`
value, exactly as the React state holds a parsed object. -/
structure CodeBlockState where
  files : List ParsedFile
  activeFile : Option ParsedFile
deriving DecidableEq, Repr

/-- One run of the parse `useEffect` (streaming `CodeBlock`, lines 195-254)
over the component state.  With empty content the effect sets `files` to
`[]` and returns before parsing.  After a parse, `setActiveFile` is called
only when no file was active (`if (!activeFile && parsed.length > 0)`); in
every other case — including when the active name is absent from the new
parse — the `else if` branch performs no state change, so the previously
held `ParsedFile` value is kept as is. -/
def parseEffect (content : List Char) (isStreaming : Bool)
    (st : CodeBlockState) : CodeBlockState :=
  if content = [] then { st with files := [] }
  else
    let parsed := parseFiles content isStreaming
    { files := parsed
      activeFile :=
        match st.activeFile with
        | none => parsed.head?
        | some a => some a }

/-- The code view renders `activeFile.content` directly (line 531). -/
def shownContent (st : CodeBlockState) : Option (List Char) :=
  st.activeFile.map (fun f => f.content)

/-- The `while ((match = fileRegex.exec(content)) !== null)` loop of
`addFilesFromContent` in `App.tsx`: successive matches of the same global
regex, collecting `(match[1], match[2].trim())` per iteration. -/
def execLoop : Nat → List Char → List (List Char × List Char)
  | 0, _ => []
  | _ + 1, [] => []
  | fuel + 1, c :: cs =>
    match matchFileAt (c :: cs) with
    | some (nm, body, rest) => (nm, jsTrim body) :: execLoop fuel rest
    | none => execLoop fuel cs

/-- `addFilesFromContent` (App.tsx lines 99-112): returns the `found` flag
and the list of zip entries it adds, each at `folderName/filePath` with the
trimmed content. -/
def addFilesFromContent (folder content : List Char) :
    Bool × List (List Char × List Char) :=
  if content = [] then (false, [])
  else
    let pairs := execLoop content.length content
    (decide (pairs ≠ []), pairs.map (fun p => (folder ++ '/' :: p.1, p.2)))

/-- `filename.includes(pat)`: substring containment test. -/
def containsStr (pat : List Char) : List Char → Bool
  | [] => decide (pat = [])
  | c :: cs => pat.isPrefixOf (c :: cs) || containsStr pat cs

/-- `blueprint.appName.toLowerCase().replace(/[^a-z0-9]+/g, '-')`: after
lowercasing, each maximal run of characters outside `[a-z0-9]` becomes a
single `'-'`.  `inRun` tracks whether the previous character was part of
such a run. -/
def sanitizeRuns (inRun : Bool) : List Char → List Char
  | [] => []
  | c :: cs =>
    if ('a' ≤ c && c ≤ 'z') || ('0' ≤ c && c ≤ '9') then
      c :: sanitizeRuns false cs
    else if inRun then sanitizeRuns true cs
    else '-' :: sanitizeRuns true cs

/-- The project folder name in `handleExport`: `'project'` when the app
name is empty (falsy), otherwise the sanitized lowercase name. -/
def safeName (appName : List Char) : List Char :=
  if appName = [] then "project".toList
  else sanitizeRuns false (appName.map Char.toLower)

/-- The zip entries written by `handleExport` (App.tsx lines 85-145) for a
non-null blueprint, in write order.  Each module contributes its tagged
files when `addFilesFromContent` found any, else — when its raw text is
nonempty — a single guide document; the serialized blueprint
(`JSON.stringify(blueprint, null, 2)`, abstracted as the `blueprintJson`
argument) is always written to `folder/blueprint.json` afterwards. -/
def handleExport (appName blueprintJson frontendCode backendCode
    deploymentGuide : List Char) : List (List Char × List Char) :=
  let folder := safeName appName
  let moduleEntries := fun (code : List Char) (guideName : List Char) =>
    if code = [] then []
    else
      let r := addFilesFromContent folder code
      if r.1 then r.2 else [(folder ++ '/' :: guideName, code)]
  moduleEntries frontendCode "frontend-guide.md".toList ++
    moduleEntries backendCode "backend-guide.md".toList ++
    moduleEntries deploymentGuide "deployment.md".toList ++
    [(folder ++ '/' :: "blueprint.json".toList, blueprintJson)]

/-- `files.find(f => f.name.includes('main.tsx') || f.name.includes('index.tsx'))`.
Files carry their array index so that two structurally equal records at
different positions stay distinct, as JS object references do. -/
def findMainFile (files : List (Nat × ParsedFile)) : Option (Nat × ParsedFile) :=
  files.find? (fun f =>
    containsStr "main.tsx".toList f.2.name || containsStr "index.tsx".toList f.2.name)

/-- `files.find(f => f.name === 'src/App.tsx' || f.name === 'App.tsx')`. -/
def findAppFile (files : List (Nat × ParsedFile)) : Option (Nat × ParsedFile) :=
  files.find? (fun f =>
    decide (f.2.name = "src/App.tsx".toList) || decide (f.2.name = "App.tsx".toList))

/-- `f.name.includes('utils') || f.name.includes('types')`. -/
def isUtilsTypes (f : ParsedFile) : Bool :=
  containsStr "utils".toList f.name || containsStr "types".toList f.name

/-- `f.name.includes('components/')`. -/
def isComponents (f : ParsedFile) : Bool :=
  containsStr "components/".toList f.name

/-- `f.name.includes('pages/')`. -/
def isPages (f : ParsedFile) : Bool :=
  containsStr "pages/".toList f.name

/-- `Array.from(new Set(...))` keeps the first occurrence of each element
and drops later duplicates, preserving order; `seen` accumulates the
elements already emitted. -/
def jsDedupAux {α : Type} [DecidableEq α] (seen : List α) : List α → List α
  | [] => []
  | a :: l =>
    if a ∈ seen then jsDedupAux seen l
    else a :: jsDedupAux (a :: seen) l

/-- `Array.from(new Set(l))`. -/
def jsDedup {α : Type} [DecidableEq α] (l : List α) : List α :=
  jsDedupAux [] l

/-- The file list concatenated by `generatePreview` (CodeBlock.tsx lines
264-313): `none` when the gate fails (`!files.length`, no entry file, or no
root component); otherwise `sortedFiles` deduplicated — utils/types
matches, then `components/` matches, then `pages/` matches, then the root
component, then the entry file. -/
def previewOrder (files : List (Nat × ParsedFile)) :
    Option (List (Nat × ParsedFile)) :=
  if files = [] then none
  else
    match findMainFile files with
    | none => none
    | some mainF =>
      match findAppFile files with
      | none => none
      | some appF =>
        some (jsDedup
          (files.filter (fun f => isUtilsTypes f.2) ++
            files.filter (fun f => isComponents f.2) ++
            files.filter (fun f => isPages f.2) ++
            [appF, mainF]))

/-- The category rank of a file in the concatenation order: the first
block of `sortedFiles` that contains it. -/
def rankOf (appF : Nat × ParsedFile) (x : Nat × ParsedFile) : Nat :=
  if isUtilsTypes x.2 then 0
  else if isComponents x.2 then 1
  else if isPages x.2 then 2
  else if x = appF then 3
  else 4

/-- The blob-resource bookkeeping of the preview path: every id ever
handed out by `URL.createObjectURL`, every id passed to
`URL.revokeObjectURL`, and the `previewUrl` component state. -/
structure PreviewState where
  createdUrls : List Nat
  revokedUrls : List Nat
  previewUrl : Option Nat
deriving DecidableEq, Repr

/-- The initial component state: no preview URL, no blobs. -/
def previewStart : PreviewState :=
  { createdUrls := [], revokedUrls := [], previewUrl := none }

/-- The resource effect of one successful `generatePreview` invocation
(CodeBlock.tsx lines 381-382): a fresh blob URL is created and stored in
`previewUrl`.  No call to `URL.revokeObjectURL` occurs anywhere in the
component, so `revokedUrls` is untouched. -/
def generatePreviewPass (st : PreviewState) : PreviewState :=
  let u := st.createdUrls.length
  { createdUrls := st.createdUrls ++ [u]
    revokedUrls := st.revokedUrls
    previewUrl := some u }

/-- Iterated bundling passes (repeated preview toggles). -/
def previewPasses : Nat → PreviewState
  | 0 => previewStart
  | n + 1 => generatePreviewPass (previewPasses n)

/-- The blob resources still live: created and never revoked. -/
def liveUrls (st : PreviewState) : List Nat :=
  st.createdUrls.filter (fun u => decide (u ∉ st.revokedUrls))

/-- The outcome of the streamed provider call inside `generateModuleCode`:
either the concatenated chunk text or a thrown error. -/
inductive ProviderResult where
  | ok (text : List Char)
  | err (msg : List Char)
deriving DecidableEq, Repr

/-- The settled result of the `generateModuleCode` promise
(geminiService, lines 236-257): a missing API key rejects; a provider
error is caught and RESOLVED with an error-comment string; empty streamed
text resolves with a placeholder.  `Except.error` models a rejected
promise, `Except.ok` a fulfilled one. -/
def generateModuleCode (apiKey moduleType : List Char)
    (r : ProviderResult) : Except (List Char) (List Char) :=
  if apiKey = [] then .error "API Key is missing".toList
  else
    match r with
    | .ok t => .ok (if t = [] then "Failed to generate code.".toList else t)
    | .err e =>
      .ok ("// Error generating ".toList ++ moduleType ++
        " code. Please try again. \n// ".toList ++ e)

/-- Spec-side definition for the amended extension claim: the substring of
a path after its final `'.'` (the whole path when it has none). -/
def afterLastDot (nm : List Char) : List Char :=
  (nm.reverse.takeWhile (fun c => decide (c ≠ '.'))).reverse

/-- A well-formed complete record on the wire:
`<file name="NAME">BODY</file>`. -/
def tagRecord (nm body : List Char) : List Char :=
  openLit ++ nm ++ '"' :: '>' :: (body ++ closeLit)

/-! ### Lemmas about the character-level scanners -/

theorem chopLit_eq_some {p s r : List Char} :
    chopLit p s = some r ↔ s = p ++ r := by
  induction p generalizing s r with
  | nil =>
    simp [chopLit, eq_comm]
  | cons p ps ih =>
    cases s with
    | nil => simp [chopLit]
    | cons c cs =>
      simp only [chopLit]
      by_cases h : c = p
      · simp [h, ih]
      · simp only [if_neg h]
        constructor
        · intro hc; cases hc
        · intro hc
          injection hc with h1 _
          exact absurd h1 h

theorem chopLit_append_some {p s r : List Char} (h : chopLit p s = some r)
    (t : List Char) : chopLit p (s ++ t) = some (r ++ t) := by
  rw [chopLit_eq_some] at h ⊢
  rw [h, List.append_assoc]

theorem chopLit_none_append {p s : List Char} (h : chopLit p s = none)
    (hl : p.length ≤ s.length) (t : List Char) : chopLit p (s ++ t) = none := by
  induction p generalizing s with
  | nil => simp [chopLit] at h
  | cons p ps ih =>
    cases s with
    | nil => simp at hl
    | cons c cs =>
      simp only [chopLit, List.cons_append] at h ⊢
      by_cases hc : c = p
      · rw [if_pos hc] at h ⊢
        exact ih h (by simpa using hl)
      · rw [if_neg hc]

theorem breakAtChar_sound {ch : Char} :
    ∀ {s a b : List Char}, breakAtChar ch s = some (a, b) →
      s = a ++ ch :: b ∧ ch ∉ a := by
  intro s
  induction s with
  | nil => intro a b h; cases h
  | cons c cs ih =>
    intro a b h
    simp only [breakAtChar] at h
    by_cases hc : c = ch
    · rw [if_pos hc] at h
      cases h
      simp [hc]
    · rw [if_neg hc] at h
      cases hbc : breakAtChar ch cs with
      | none => rw [hbc] at h; cases h
      | some ab =>
        obtain ⟨a1, b1⟩ := ab
        rw [hbc] at h
        cases h
        obtain ⟨he, hn⟩ := ih hbc
        constructor
        · rw [List.cons_append, he]
        · simp only [List.mem_cons, not_or]
          exact ⟨fun hh => hc hh.symm, hn⟩

theorem breakAtChar_append {ch : Char} :
    ∀ {s a b : List Char}, breakAtChar ch s = some (a, b) →
      ∀ t, breakAtChar ch (s ++ t) = some (a, b ++ t) := by
  intro s
  induction s with
  | nil => intro a b h; cases h
  | cons c cs ih =>
    intro a b h t
    simp only [breakAtChar] at h
    simp only [List.cons_append, breakAtChar, List.append_eq]
    by_cases hc : c = ch
    · rw [if_pos hc] at h ⊢
      cases h
      rfl
    · rw [if_neg hc] at h ⊢
      cases hbc : breakAtChar ch cs with
      | none => rw [hbc] at h; cases h
      | some ab =>
        obtain ⟨a1, b1⟩ := ab
        rw [hbc] at h
        cases h
        rw [ih hbc t]

theorem breakAtChar_isSome {ch : Char} :
    ∀ {s : List Char}, ch ∈ s → ∃ a b, breakAtChar ch s = some (a, b) := by
  intro s
  induction s with
  | nil => intro h; cases h
  | cons c cs ih =>
    intro h
    simp only [breakAtChar]
    by_cases hc : c = ch
    · exact ⟨[], cs, by rw [if_pos hc]⟩
    · have : ch ∈ cs := by
        cases h with
        | head => exact absurd rfl hc
        | tail _ h => exact h
      obtain ⟨a, b, hab⟩ := ih this
      exact ⟨c :: a, b, by rw [if_neg hc, hab]⟩

theorem breakAtSub_sound {pat : List Char} :
    ∀ {s a b : List Char}, breakAtSub pat s = some (a, b) →
      s = a ++ pat ++ b := by
  intro s
  induction s with
  | nil =>
    intro a b h
    simp only [breakAtSub] at h
    cases hcl : chopLit pat [] with
    | none => rw [hcl] at h; cases h
    | some r =>
      rw [hcl] at h
      cases h
      rw [chopLit_eq_some] at hcl
      simpa using hcl
  | cons c cs ih =>
    intro a b h
    simp only [breakAtSub] at h
    cases hcl : chopLit pat (c :: cs) with
    | some r =>
      rw [hcl] at h
      cases h
      rw [chopLit_eq_some] at hcl
      simpa using hcl
    | none =>
      rw [hcl] at h
      cases hbs : breakAtSub pat cs with
      | none => rw [hbs] at h; cases h
      | some ab =>
        obtain ⟨a1, b1⟩ := ab
        rw [hbs] at h
        cases h
        have := ih hbs
        rw [List.cons_append, List.cons_append, this]

theorem breakAtSub_isSome {pat : List Char} :
    ∀ {s : List Char}, pat <:+: s → ∃ a b, breakAtSub pat s = some (a, b) := by
  intro s
  induction s with
  | nil =>
    intro h
    have : pat = [] := List.eq_nil_of_infix_nil h
    subst this
    exact ⟨[], [], rfl⟩
  | cons c cs ih =>
    intro h
    simp only [breakAtSub]
    cases hcl : chopLit pat (c :: cs) with
    | some r => exact ⟨[], r, rfl⟩
    | none =>
      have hcs : pat <:+: cs := by
        rcases List.infix_cons_iff.1 h with hp | hi
        · obtain ⟨t, ht⟩ := hp
          rw [chopLit_eq_some.2 ht.symm] at hcl
          cases hcl
        · exact hi

      obtain ⟨a, b, hab⟩ := ih hcs
      exact ⟨c :: a, b, by rw [hab]⟩

theorem breakAtSub_append {pat : List Char} :
    ∀ {s a b : List Char}, breakAtSub pat s = some (a, b) →
      ∀ t, breakAtSub pat (s ++ t) = some (a, b ++ t) := by
  intro s
  induction s with
  | nil =>
    intro a b h t
    simp only [breakAtSub] at h
    cases hcl : chopLit pat [] with
    | none => rw [hcl] at h; cases h
    | some r =>
      rw [hcl] at h
      cases h
      rw [chopLit_eq_some] at hcl
      have hp : pat = [] := by
        cases pat with
        | nil => rfl
        | cons p ps => cases hcl
      subst hp
      simp only [List.nil_append] at hcl
      subst hcl
      cases t with
      | nil => rfl
      | cons c cs => simp [breakAtSub, chopLit]
  | cons c cs ih =>
    intro a b h t
    simp only [breakAtSub] at h
    simp only [List.cons_append, breakAtSub, List.append_eq]
    cases hcl : chopLit pat (c :: cs) with
    | some r =>
      rw [hcl] at h
      cases h
      have h2 := chopLit_append_some hcl t
      rw [List.cons_append] at h2
      rw [h2]
    | none =>
      rw [hcl] at h
      cases hbs : breakAtSub pat cs with
      | none => rw [hbs] at h; cases h
      | some ab =>
        obtain ⟨a1, b1⟩ := ab
        rw [hbs] at h
        cases h
        have hlen : pat.length ≤ (c :: cs).length := by
          have := breakAtSub_sound hbs
          subst this
          simp only [List.length_cons, List.length_append]
          omega
        have h2 := chopLit_none_append hcl hlen t
        rw [List.cons_append] at h2
        rw [h2, ih hbs t]

theorem matchFileAt_sound {s nm body rest : List Char}
    (h : matchFileAt s = some (nm, body, rest)) :
    s = openLit ++ nm ++ '"' :: '>' :: (body ++ closeLit ++ rest) ∧
      nm ≠ [] ∧ '"' ∉ nm := by
  simp only [matchFileAt] at h
  cases h1 : chopLit openLit s with
  | none => simp only [h1] at h; cases h
  | some r1 =>
    simp only [h1] at h
    cases h2 : breakAtChar '"' r1 with
    | none => simp only [h2] at h; cases h
    | some ab =>
      obtain ⟨nm1, r2⟩ := ab
      simp only [h2] at h
      by_cases hnm : nm1 = []
      · rw [if_pos hnm] at h; cases h
      · rw [if_neg hnm] at h
        cases h3 : chopLit ['>'] r2 with
        | none => simp only [h3] at h; cases h
        | some r3 =>
          simp only [h3] at h
          cases h4 : breakAtSub closeLit r3 with
          | none => simp only [h4] at h; cases h
          | some br =>
            obtain ⟨b1, r4⟩ := br
            simp only [h4] at h
            cases h
            obtain ⟨he2, hn2⟩ := breakAtChar_sound h2
            rw [chopLit_eq_some] at h1 h3
            have he4 := breakAtSub_sound h4
            refine ⟨?_, hnm, hn2⟩
            rw [h1, he2, h3, he4]
            simp [List.append_assoc, closeLit]


theorem matchFileAt_append {s nm body rest : List Char}
    (h : matchFileAt s = some (nm, body, rest)) (t : List Char) :
    matchFileAt (s ++ t) = some (nm, body, rest ++ t) := by
  simp only [matchFileAt] at h
  cases h1 : chopLit openLit s with
  | none => simp only [h1] at h; cases h
  | some r1 =>
    simp only [h1] at h
    cases h2 : breakAtChar '"' r1 with
    | none => simp only [h2] at h; cases h
    | some ab =>
      obtain ⟨nm1, r2⟩ := ab
      simp only [h2] at h
      by_cases hnm : nm1 = []
      · rw [if_pos hnm] at h; cases h
      · rw [if_neg hnm] at h
        cases h3 : chopLit ['>'] r2 with
        | none => simp only [h3] at h; cases h
        | some r3 =>
          simp only [h3] at h
          cases h4 : breakAtSub closeLit r3 with
          | none => simp only [h4] at h; cases h
          | some br =>
            obtain ⟨b1, r4⟩ := br
            simp only [h4] at h
            cases h
            simp only [matchFileAt, chopLit_append_some h1 t,
              breakAtChar_append h2 t, if_neg hnm, chopLit_append_some h3 t,
              breakAtSub_append h4 t]

theorem matchFileAt_rest_lt {s nm body rest : List Char}
    (h : matchFileAt s = some (nm, body, rest)) :
    rest.length < s.length := by
  have hs := (matchFileAt_sound h).1
  rw [hs]
  simp only [List.length_append, List.length_cons]
  omega

theorem first_occurrence_suffix {ch : Char} :
    ∀ {a b c d : List Char}, a ++ ch :: b = c ++ ch :: d → ch ∉ a →
      ch :: d <:+ ch :: b := by
  intro a
  induction a with
  | nil =>
    intro b c d he _
    exact ⟨c, he.symm⟩
  | cons x xs ih =>
    intro b c d he hn
    cases c with
    | nil =>
      injection he with h1 _
      subst h1
      exact absurd (List.mem_cons_self _ _) hn
    | cons y ys =>
      injection he with h1 h2
      have hx : ch ∉ xs := fun hh => hn (List.mem_cons_of_mem _ hh)
      exact ih h2 hx

theorem suffix_cons_cons {a : Char} {l1 l2 : List Char}
    (h : (a :: l1) <:+ (a :: l2)) : l1 <:+ l2 := by
  obtain ⟨v, hv⟩ := h
  cases v with
  | nil =>
    injection hv with _ h2
    exact h2 ▸ List.suffix_rfl
  | cons x xs =>
    injection hv with h1 h2
    exact (List.suffix_cons a l1).trans ⟨xs, h2⟩

theorem append_eq_append_split {α : Type} :
    ∀ {a c : List α} (b d : List α), a ++ b = c ++ d → c.length ≤ a.length →
      ∃ w, a = c ++ w ∧ d = w ++ b := by
  intro a c
  induction c generalizing a with
  | nil =>
    intro b d he _
    exact ⟨a, by simp, by simpa using he.symm⟩
  | cons y ys ih =>
    intro b d he hl
    cases a with
    | nil => simp at hl
    | cons z zs =>
      injection he with h1 h2
      obtain ⟨w, hw1, hw2⟩ := ih _ _ h2 (by simpa using hl)
      refine ⟨w, ?_, hw2⟩
      rw [h1, hw1]
      rfl

theorem matchFileAt_stable_none {u t S : List Char}
    {x : List Char × List Char × List Char}
    (ht : matchFileAt t = some x) (hB : matchFileAt (u ++ t) = none) :
    matchFileAt ((u ++ t) ++ S) = none := by
  cases u with
  | nil =>
    rw [List.nil_append] at hB
    rw [ht] at hB
    cases hB
  | cons u0 us =>
    obtain ⟨nm, body, rest⟩ := x
    obtain ⟨hts, hnm, hq⟩ := matchFileAt_sound ht
    cases h1 : chopLit openLit ((u0 :: us) ++ t) with
    | none =>
      have hlen : openLit.length ≤ ((u0 :: us) ++ t).length := by
        rw [hts]
        simp only [List.length_append, List.length_cons]
        omega
      simp only [matchFileAt, chopLit_none_append h1 hlen S]
    | some r1 =>
      rw [chopLit_eq_some] at h1
      have hZ : (u0 :: us) ++ t =
          ((u0 :: us) ++ openLit ++ nm) ++
            '"' :: ('>' :: (body ++ closeLit ++ rest)) := by
        rw [hts]
        simp [List.append_assoc]
      have hcomb : ((u0 :: us) ++ openLit ++ nm) ++
          '"' :: ('>' :: (body ++ closeLit ++ rest)) = openLit ++ r1 := by
        rw [← hZ]
        exact h1
      obtain ⟨w, _, hw2⟩ := append_eq_append_split _ _ hcomb
        (by simp only [List.length_append, List.length_cons]; omega)
      have hqr1 : '"' ∈ r1 := by
        rw [hw2]
        simp
      obtain ⟨nm1, r2, h2⟩ := breakAtChar_isSome hqr1
      obtain ⟨he2, hn2⟩ := breakAtChar_sound h2
      have e1 : chopLit openLit (((u0 :: us) ++ t) ++ S) = some (r1 ++ S) :=
        chopLit_append_some (chopLit_eq_some.2 h1) S
      have e2 : breakAtChar '"' (r1 ++ S) = some (nm1, r2 ++ S) :=
        breakAtChar_append h2 S
      by_cases hnm1 : nm1 = []
      · simp only [matchFileAt, e1, e2, if_pos hnm1]
      · have heq : nm1 ++ '"' :: r2 =
            w ++ '"' :: ('>' :: (body ++ closeLit ++ rest)) := by
          rw [← he2]
          exact hw2
        have hsfx : '"' :: ('>' :: (body ++ closeLit ++ rest)) <:+ '"' :: r2 :=
          first_occurrence_suffix heq hn2
        have hZsfx : ('>' :: (body ++ closeLit ++ rest)) <:+ r2 :=
          suffix_cons_cons hsfx
        obtain ⟨h2c, r2tl, hr2⟩ : ∃ h2c r2tl, r2 = h2c :: r2tl := by
          cases r2 with
          | nil =>
            obtain ⟨v, hv⟩ := hZsfx
            simp at hv
          | cons h2c r2tl => exact ⟨h2c, r2tl, rfl⟩
        subst hr2
        by_cases hgt : h2c = '>'
        · subst hgt
          have hbcr : (body ++ closeLit ++ rest) <:+ r2tl :=
            suffix_cons_cons hZsfx
          have hinf : closeLit <:+: r2tl := by
            obtain ⟨v, hv⟩ := hbcr
            exact ⟨v ++ body, rest, by rw [← hv]; simp [List.append_assoc]⟩
          obtain ⟨bb, rr, h4⟩ := breakAtSub_isSome hinf
          have e3 : chopLit ['>'] ('>' :: r2tl) = some r2tl := by
            simp [chopLit]
          have hsome : matchFileAt ((u0 :: us) ++ t) = some (nm1, bb, rr) := by
            simp only [matchFileAt, chopLit_eq_some.2 h1, h2, if_neg hnm1, e3, h4]
          rw [hsome] at hB
          cases hB
        · have e3S : chopLit ['>'] ((h2c :: r2tl) ++ S) = none := by
            simp [chopLit, hgt]
          simp only [matchFileAt, e1, e2, if_neg hnm1, e3S]

theorem scanMatches_nil : ∀ f, scanMatches f [] = [] := by
  intro f
  cases f <;> rfl

theorem scanMatches_stable :
    ∀ f g s, s.length ≤ f → s.length ≤ g → scanMatches f s = scanMatches g s := by
  intro f
  induction f with
  | zero =>
    intro g s hf _
    have hs : s = [] := List.eq_nil_of_length_eq_zero (Nat.le_zero.1 hf)
    subst hs
    rw [scanMatches_nil, scanMatches_nil]
  | succ f ih =>
    intro g s hf hg
    cases s with
    | nil => rw [scanMatches_nil, scanMatches_nil]
    | cons c cs =>
      obtain ⟨g', rfl⟩ : ∃ g', g = g' + 1 := by
        cases g with
        | zero => simp at hg
        | succ g' => exact ⟨g', rfl⟩
      simp only [scanMatches]
      cases hm : matchFileAt (c :: cs) with
      | none =>
        have hf' : cs.length ≤ f := by
          simp only [List.length_cons] at hf
          omega
        have hg' : cs.length ≤ g' := by
          simp only [List.length_cons] at hg
          omega
        exact ih g' cs hf' hg'
      | some x =>
        obtain ⟨nm, body, rest⟩ := x
        have hlt := matchFileAt_rest_lt hm
        simp only [List.length_cons] at hlt hf hg
        exact congrArg (List.cons (nm, body)) (ih g' rest (by omega) (by omega))

theorem scanBuf_cons_some {c : Char} {cs nm body rest : List Char}
    (h : matchFileAt (c :: cs) = some (nm, body, rest)) :
    scanBuf (c :: cs) = (nm, body) :: scanBuf rest := by
  have hlt := matchFileAt_rest_lt h
  simp only [List.length_cons] at hlt
  simp only [scanBuf, List.length_cons, scanMatches, h]
  rw [scanMatches_stable cs.length rest.length rest (by omega) le_rfl]

theorem scanBuf_cons_none {c : Char} {cs : List Char}
    (h : matchFileAt (c :: cs) = none) :
    scanBuf (c :: cs) = scanBuf cs := by
  simp only [scanBuf, List.length_cons, scanMatches, h]

theorem scanBuf_eq_nil {s : List Char}
    (h : ∀ t : List Char, t <:+ s → matchFileAt t = none) : scanBuf s = [] := by
  induction s with
  | nil => rfl
  | cons c cs ih =>
    rw [scanBuf_cons_none (h _ List.suffix_rfl)]
    exact ih (fun t ht => h t (ht.trans (List.suffix_cons c cs)))

theorem scanBuf_append_isPre :
    ∀ (n : Nat) (B S : List Char), B.length ≤ n →
      scanBuf B <+: scanBuf (B ++ S) := by
  intro n
  induction n with
  | zero =>
    intro B S hB
    have hb : B = [] := List.eq_nil_of_length_eq_zero (Nat.le_zero.1 hB)
    subst hb
    exact List.nil_prefix
  | succ n ih =>
    intro B S hB
    cases B with
    | nil => exact List.nil_prefix
    | cons c cs =>
      cases hm : matchFileAt (c :: cs) with
      | some x =>
        obtain ⟨nm, body, rest⟩ := x
        have hm2 := matchFileAt_append hm S
        rw [List.cons_append] at hm2
        rw [scanBuf_cons_some hm, List.cons_append, scanBuf_cons_some hm2]
        have hlt := matchFileAt_rest_lt hm
        simp only [List.length_cons] at hlt hB
        obtain ⟨w, hw⟩ := ih rest S (by omega)
        exact ⟨w, by rw [List.cons_append, hw]⟩
      | none =>
        cases hm2 : matchFileAt ((c :: cs) ++ S) with
        | none =>
          rw [scanBuf_cons_none hm, List.cons_append]
          rw [List.cons_append] at hm2
          rw [scanBuf_cons_none hm2]
          simp only [List.length_cons] at hB
          exact ih cs S (by omega)
        | some x =>
          have hnil : scanBuf (c :: cs) = [] := by
            apply scanBuf_eq_nil
            intro t ht
            obtain ⟨u, hu⟩ := ht
            cases hmt : matchFileAt t with
            | none => rfl
            | some y =>
              have hB' : matchFileAt (u ++ t) = none := by
                rw [hu]
                exact hm
              have hS := matchFileAt_stable_none (S := S) hmt hB'
              rw [hu, hm2] at hS
              cases hS
          rw [hnil]
          exact List.nil_prefix

theorem scanBuf_isPre (B S : List Char) : scanBuf B <+: scanBuf (B ++ S) :=
  scanBuf_append_isPre B.length B S le_rfl

theorem filter_complete_map (l : List (List Char × List Char)) :
    (l.map (fun p => mkComplete p.1 p.2)).filter (fun f => f.isComplete) =
      l.map (fun p => mkComplete p.1 p.2) := by
  induction l with
  | nil => rfl
  | cons p ps ih =>
    simp only [List.map_cons, List.filter_cons]
    rw [ih]
    rfl

theorem parseFiles_filter_complete (B : List Char) (strm : Bool) :
    (parseFiles B strm).filter (fun f => f.isComplete) =
      (scanBuf B).map (fun p => mkComplete p.1 p.2) := by
  by_cases hB : B = []
  · subst hB
    simp [parseFiles, scanBuf, scanMatches]
  · simp only [parseFiles, if_neg hB]
    cases strm with
    | false =>
      simp only [Bool.false_eq_true, if_false]
      exact filter_complete_map _
    | true =>
      simp only [if_true]
      cases hfo : findOpen (remBuf B) with
      | none =>
        simp only [hfo]
        exact filter_complete_map _
      | some p =>
        obtain ⟨nm, body⟩ := p
        simp only [hfo]
        rw [List.filter_append, filter_complete_map]
        have hopen : ([mkOpen nm body].filter (fun f => f.isComplete)) = [] := rfl
        rw [hopen, List.append_nil]

/-! ### Helper lemmas for the remaining claims -/

theorem execLoop_eq_scanMatches (f : Nat) :
    ∀ s, execLoop f s = (scanMatches f s).map (fun p => (p.1, jsTrim p.2)) := by
  induction f with
  | zero => intro s; rfl
  | succ f ih =>
    intro s
    cases s with
    | nil => rfl
    | cons c cs =>
      simp only [execLoop, scanMatches]
      cases hm : matchFileAt (c :: cs) with
      | none => exact ih cs
      | some x =>
        obtain ⟨nm, body, rest⟩ := x
        simp only [List.map_cons]
        exact congrArg _ (ih rest)

theorem filter_not_mem_nil (l : List Nat) :
    l.filter (fun u => decide (u ∉ ([] : List Nat))) = l := by
  induction l with
  | nil => rfl
  | cons a l ih => simp [List.filter_cons, ih]

theorem previewPasses_revoked (n : Nat) : (previewPasses n).revokedUrls = [] := by
  induction n with
  | zero => rfl
  | succ n ih => exact ih

theorem previewPasses_created_length (n : Nat) :
    (previewPasses n).createdUrls.length = n := by
  induction n with
  | zero => rfl
  | succ n ih =>
    show ((previewPasses n).createdUrls ++ [(previewPasses n).createdUrls.length]).length = n + 1
    simp [ih]

theorem liveUrls_of_no_revoked {st : PreviewState} (h : st.revokedUrls = []) :
    liveUrls st = st.createdUrls := by
  rw [liveUrls, h]
  exact filter_not_mem_nil _

theorem takeWhile_all {p : Char → Bool} :
    ∀ {l : List Char}, (∀ x ∈ l, p x = true) → l.takeWhile p = l := by
  intro l
  induction l with
  | nil => intro _; rfl
  | cons c cs ih =>
    intro h
    rw [List.takeWhile_cons, h c (List.mem_cons_self c cs)]
    simp only [if_true]
    rw [ih (fun x hx => h x (List.mem_cons_of_mem c hx))]

theorem takeWhile_append_of_false {p : Char → Bool} :
    ∀ {l1 : List Char} (l2 : List Char) (x : Char), x ∈ l1 → p x = false →
      (l1 ++ l2).takeWhile p = l1.takeWhile p := by
  intro l1
  induction l1 with
  | nil => intro l2 x hx _; cases hx
  | cons c cs ih =>
    intro l2 x hx hpx
    rw [List.cons_append]
    cases hpc : p c with
    | false => rw [List.takeWhile_cons, List.takeWhile_cons, hpc]; simp
    | true =>
      rw [List.takeWhile_cons, List.takeWhile_cons, hpc]
      simp only [if_true]
      have hxcs : x ∈ cs := by
        cases hx with
        | head => rw [hpx] at hpc; cases hpc
        | tail _ hh => exact hh
      rw [ih l2 x hxcs hpx]

theorem takeWhile_append_of_all {p : Char → Bool} :
    ∀ {l1 : List Char} (l2 : List Char), (∀ x ∈ l1, p x = true) →
      (l1 ++ l2).takeWhile p = l1 ++ l2.takeWhile p := by
  intro l1
  induction l1 with
  | nil => intro l2 _; rfl
  | cons c cs ih =>
    intro l2 h
    rw [List.cons_append, List.takeWhile_cons, h c (List.mem_cons_self c cs)]
    simp only [if_true]
    rw [ih l2 (fun x hx => h x (List.mem_cons_of_mem c hx)), List.cons_append]

theorem afterLastDot_cons_of_mem {c : Char} {cs : List Char} (h : '.' ∈ cs) :
    afterLastDot (c :: cs) = afterLastDot cs := by
  unfold afterLastDot
  rw [List.reverse_cons,
    takeWhile_append_of_false [c] '.' (List.mem_reverse.2 h) (by decide)]

theorem afterLastDot_of_not_mem {nm : List Char} (h : '.' ∉ nm) :
    afterLastDot nm = nm := by
  unfold afterLastDot
  have hall : ∀ x ∈ nm.reverse, (fun c => decide (c ≠ '.')) x = true := by
    intro x hx
    have hxm : x ∈ nm := List.mem_reverse.1 hx
    simp only [decide_eq_true_eq]
    intro heq
    subst heq
    exact h hxm
  rw [takeWhile_all hall]
  exact List.reverse_reverse nm

theorem afterLastDot_cons_self {cs : List Char} (h : '.' ∉ cs) :
    afterLastDot ('.' :: cs) = cs := by
  unfold afterLastDot
  have hall : ∀ x ∈ cs.reverse, (fun c => decide (c ≠ '.')) x = true := by
    intro x hx
    have hxm : x ∈ cs := List.mem_reverse.1 hx
    simp only [decide_eq_true_eq]
    intro heq
    subst heq
    exact h hxm
  rw [List.reverse_cons, takeWhile_append_of_all ['.'] hall]
  rw [show List.takeWhile (fun c => decide (c ≠ '.')) ['.'] = [] from rfl]
  simp

theorem splitOnChar_ne_nil (ch : Char) : ∀ l, splitOnChar ch l ≠ [] := by
  intro l
  cases l with
  | nil => simp [splitOnChar]
  | cons c cs =>
    simp only [splitOnChar]
    by_cases hc : c = ch
    · simp [hc]
    · simp only [if_neg hc]
      cases splitOnChar ch cs with
      | nil => simp
      | cons a rest => simp

theorem splitOnChar_of_not_mem {ch : Char} :
    ∀ {l : List Char}, ch ∉ l → splitOnChar ch l = [l] := by
  intro l
  induction l with
  | nil => intro _; rfl
  | cons c cs ih =>
    intro h
    have hc : ¬ c = ch := fun he => h (by rw [← he]; exact List.mem_cons_self c cs)
    have hcs : ch ∉ cs := fun hh => h (List.mem_cons_of_mem c hh)
    simp only [splitOnChar, if_neg hc, ih hcs]

theorem splitOnChar_length_of_mem {ch : Char} :
    ∀ {l : List Char}, ch ∈ l → 2 ≤ (splitOnChar ch l).length := by
  intro l
  induction l with
  | nil => intro h; cases h
  | cons c cs ih =>
    intro h
    simp only [splitOnChar]
    by_cases hc : c = ch
    · simp only [if_pos hc, List.length_cons]
      have h1 : splitOnChar ch cs ≠ [] := splitOnChar_ne_nil ch cs
      have h2 : 0 < (splitOnChar ch cs).length := List.length_pos.2 h1
      omega
    · simp only [if_neg hc]
      have hcs : ch ∈ cs := by
        rcases List.mem_cons.1 h with h1 | h2
        · exact absurd h1.symm hc
        · exact h2
      have hlen := ih hcs
      cases hsc : splitOnChar ch cs with
      | nil => exact absurd hsc (splitOnChar_ne_nil ch cs)
      | cons a rest =>
        rw [hsc] at hlen
        simp only [List.length_cons] at hlen ⊢
        omega

theorem splitOnChar_getLast (nm : List Char) :
    (splitOnChar '.' nm).getLast? = some (afterLastDot nm) := by
  induction nm with
  | nil => rfl
  | cons c cs ih =>
    by_cases hmem : '.' ∈ cs
    · rw [afterLastDot_cons_of_mem hmem, ← ih]
      by_cases hc : c = '.'
      · simp only [splitOnChar, if_pos hc]
        obtain ⟨a, rest, hr⟩ : ∃ a rest, splitOnChar '.' cs = a :: rest := by
          cases hsc : splitOnChar '.' cs with
          | nil => exact absurd hsc (splitOnChar_ne_nil '.' cs)
          | cons a rest => exact ⟨a, rest, rfl⟩
        rw [hr, List.getLast?_cons_cons]
      · simp only [splitOnChar, if_neg hc]
        have hlen := splitOnChar_length_of_mem hmem
        obtain ⟨a, b, rest, hr⟩ : ∃ a b rest, splitOnChar '.' cs = a :: b :: rest := by
          cases hsc : splitOnChar '.' cs with
          | nil => rw [hsc] at hlen; simp at hlen
          | cons a tail =>
            cases tail with
            | nil => rw [hsc] at hlen; simp at hlen
            | cons b rest => exact ⟨a, b, rest, rfl⟩
        rw [hr, List.getLast?_cons_cons, List.getLast?_cons_cons]
    · have hsplit := splitOnChar_of_not_mem hmem
      by_cases hc : c = '.'
      · subst hc
        rw [afterLastDot_cons_self hmem]
        simp only [splitOnChar, if_pos rfl, hsplit]
        rfl
      · rw [afterLastDot_of_not_mem (fun hcc => by
          rcases List.mem_cons.1 hcc with h1 | h2
          · exact hc h1.symm
          · exact hmem h2)]
        simp only [splitOnChar, if_neg hc, hsplit]
        rfl

theorem scanMatches_name_ne_nil :
    ∀ f s (p : List Char × List Char), p ∈ scanMatches f s → p.1 ≠ [] := by
  intro f
  induction f with
  | zero => intro s p h; simp [scanMatches] at h
  | succ f ih =>
    intro s p h
    cases s with
    | nil => simp [scanMatches] at h
    | cons c cs =>
      simp only [scanMatches] at h
      cases hm : matchFileAt (c :: cs) with
      | none =>
        simp only [hm] at h
        exact ih cs p h
      | some x =>
        obtain ⟨nm, body, rest⟩ := x
        simp only [hm] at h
        rcases List.mem_cons.1 h with h1 | h2
        · rw [h1]
          exact (matchFileAt_sound hm).2.1
        · exact ih rest p h2

theorem matchOpenAt_name_ne_nil {s nm r : List Char}
    (h : matchOpenAt s = some (nm, r)) : nm ≠ [] := by
  simp only [matchOpenAt] at h
  cases h1 : chopLit openLit s with
  | none => simp only [h1] at h; cases h
  | some r1 =>
    simp only [h1] at h
    cases h2 : breakAtChar '"' r1 with
    | none => simp only [h2] at h; cases h
    | some ab =>
      obtain ⟨nm1, r2⟩ := ab
      simp only [h2] at h
      by_cases hnm : nm1 = []
      · rw [if_pos hnm] at h; cases h
      · rw [if_neg hnm] at h
        cases h3 : chopLit ['>'] r2 with
        | none => simp only [h3] at h; cases h
        | some r3 =>
          simp only [h3] at h
          cases h
          exact hnm

theorem findOpen_name_ne_nil :
    ∀ {s nm body : List Char}, findOpen s = some (nm, body) → nm ≠ [] := by
  intro s
  induction s with
  | nil => intro nm body h; cases h
  | cons c cs ih =>
    intro nm body h
    simp only [findOpen] at h
    cases hm : matchOpenAt (c :: cs) with
    | none =>
      simp only [hm] at h
      exact ih h
    | some r =>
      obtain ⟨nm1, b1⟩ := r
      simp only [hm] at h
      cases h
      exact matchOpenAt_name_ne_nil hm

theorem mem_parseFiles {B : List Char} {strm : Bool} {f : ParsedFile}
    (hf : f ∈ parseFiles B strm) :
    f.language = languageOf f.name ∧ f.name ≠ [] := by
  by_cases hB : B = []
  · subst hB
    simp [parseFiles] at hf
  · simp only [parseFiles, if_neg hB] at hf
    have hcomplete : ∀ g : ParsedFile,
        g ∈ (scanBuf B).map (fun p => mkComplete p.1 p.2) →
        g.language = languageOf g.name ∧ g.name ≠ [] := by
      intro g hg
      obtain ⟨p, hp, rfl⟩ := List.mem_map.1 hg
      exact ⟨rfl, scanMatches_name_ne_nil B.length B p hp⟩
    cases strm with
    | false =>
      simp only [Bool.false_eq_true, if_false] at hf
      exact hcomplete f hf
    | true =>
      simp only [if_true] at hf
      cases hfo : findOpen (remBuf B) with
      | none =>
        simp only [hfo] at hf
        exact hcomplete f hf
      | some p =>
        obtain ⟨nm, body⟩ := p
        simp only [hfo] at hf
        rcases List.mem_append.1 hf with h1 | h2
        · exact hcomplete f h1
        · rw [List.mem_singleton.1 h2]
          exact ⟨rfl, findOpen_name_ne_nil hfo⟩

theorem breakAtChar_of_not_mem {ch : Char} :
    ∀ {a : List Char} (b : List Char), ch ∉ a →
      breakAtChar ch (a ++ ch :: b) = some (a, b) := by
  intro a
  induction a with
  | nil =>
    intro b _
    simp [breakAtChar]
  | cons c a' ih =>
    intro b h
    have hc : ¬ c = ch := fun he => h (by rw [← he]; exact List.mem_cons_self c a')
    have ha' : ch ∉ a' := fun hh => h (List.mem_cons_of_mem c hh)
    rw [List.cons_append]
    simp only [breakAtChar, if_neg hc, ih b ha']

theorem breakAtSub_self {pat : List Char} (hp : pat ≠ []) (rest : List Char) :
    breakAtSub pat (pat ++ rest) = some ([], rest) := by
  obtain ⟨p0, ps, rfl⟩ := List.exists_cons_of_ne_nil hp
  rw [List.cons_append]
  simp only [breakAtSub]
  rw [chopLit_eq_some.2 (by rw [List.cons_append])]

theorem breakAtSub_closeLit_clean :
    ∀ {body : List Char} (rest : List Char), '<' ∉ body →
      breakAtSub closeLit (body ++ closeLit ++ rest) = some (body, rest) := by
  intro body
  induction body with
  | nil =>
    intro rest _
    rw [List.nil_append, ← List.nil_append rest]
    rw [show closeLit ++ ([] ++ rest) = closeLit ++ rest by simp]
    exact breakAtSub_self (by decide) rest
  | cons c body' ih =>
    intro rest h
    have hc : ¬ c = '<' := fun he => h (by rw [← he]; exact List.mem_cons_self c body')
    have hb : '<' ∉ body' := fun hh => h (List.mem_cons_of_mem c hh)
    rw [List.cons_append, List.cons_append]
    simp only [breakAtSub]
    have e1 : chopLit closeLit (c :: (body' ++ closeLit ++ rest)) = none := by
      rw [show closeLit = '<' :: "/file>".toList from rfl]
      simp [chopLit, hc]
    rw [show (c :: ((body' ++ closeLit) ++ rest)) = c :: (body' ++ closeLit ++ rest) from rfl]
    simp only [e1, ih rest hb]

theorem matchFileAt_tagRecord {nm body : List Char} (h1 : nm ≠ [])
    (h2 : '"' ∉ nm) (h3 : '<' ∉ body) (rest : List Char) :
    matchFileAt (tagRecord nm body ++ rest) = some (nm, body, rest) := by
  have e1 : chopLit openLit (tagRecord nm body ++ rest) =
      some (nm ++ '"' :: '>' :: (body ++ closeLit ++ rest)) :=
    chopLit_eq_some.2 (by simp [tagRecord, List.append_assoc])
  have e2 : breakAtChar '"' (nm ++ '"' :: '>' :: (body ++ closeLit ++ rest)) =
      some (nm, '>' :: (body ++ closeLit ++ rest)) :=
    breakAtChar_of_not_mem _ h2
  have e3 : chopLit ['>'] ('>' :: (body ++ closeLit ++ rest)) =
      some (body ++ closeLit ++ rest) := by
    simp [chopLit]
  have e4 : breakAtSub closeLit (body ++ closeLit ++ rest) = some (body, rest) :=
    breakAtSub_closeLit_clean rest h3
  simp only [matchFileAt, e1, e2, if_neg h1, e3, e4]

theorem tagRecord_ne_nil (nm body : List Char) : tagRecord nm body ≠ [] := by
  intro hcontra
  have := congrArg List.length hcontra
  simp [tagRecord, List.length_append] at this

theorem scanBuf_two_records {nm1 b1 nm2 b2 : List Char}
    (h1 : nm1 ≠ []) (h2 : '"' ∉ nm1) (h3 : '<' ∉ b1)
    (h4 : nm2 ≠ []) (h5 : '"' ∉ nm2) (h6 : '<' ∉ b2) :
    scanBuf (tagRecord nm1 b1 ++ tagRecord nm2 b2) = [(nm1, b1), (nm2, b2)] := by
  have hm1 : matchFileAt (tagRecord nm1 b1 ++ tagRecord nm2 b2) =
      some (nm1, b1, tagRecord nm2 b2) := matchFileAt_tagRecord h1 h2 h3 _
  have hne1 : tagRecord nm1 b1 ++ tagRecord nm2 b2 ≠ [] := by
    intro hcontra
    rcases List.append_eq_nil.1 hcontra with ⟨ha, _⟩
    exact tagRecord_ne_nil nm1 b1 ha
  obtain ⟨c, cs, hc⟩ := List.exists_cons_of_ne_nil hne1
  rw [hc] at hm1
  rw [hc, scanBuf_cons_some hm1]
  have hm2 : matchFileAt (tagRecord nm2 b2) = some (nm2, b2, []) := by
    have hx := matchFileAt_tagRecord h4 h5 h6 []
    rwa [List.append_nil] at hx
  obtain ⟨d, ds, hd⟩ := List.exists_cons_of_ne_nil (tagRecord_ne_nil nm2 b2)
  rw [hd] at hm2
  rw [hd, scanBuf_cons_some hm2]
  rfl

/-! ### Claim theorems -/

/-- C1: the buffer `<file name="a.ts">\nconst x=1;\n</file><file
name="b.ts">\nconst y=2` parsed with the streaming flag `true` yields
exactly `a.ts` complete with trimmed content `const x=1;` and `b.ts`
incomplete with the raw untrimmed content `\nconst y=2`; the completed
buffer re-parsed with the flag `false` yields both files complete, with
`b.ts` trimmed to `const y=2;`. -/
theorem streamingScenarioParse :
    parseFiles "<file name=\"a.ts\">\nconst x=1;\n</file><file name=\"b.ts\">\nconst y=2".toList true =
      [⟨"a.ts".toList, ["a.ts".toList], "const x=1;".toList, "ts".toList, true⟩,
        ⟨"b.ts".toList, ["b.ts".toList], "\nconst y=2".toList, "ts".toList, false⟩] ∧
    parseFiles "<file name=\"a.ts\">\nconst x=1;\n</file><file name=\"b.ts\">\nconst y=2;\n</file>".toList false =
      [⟨"a.ts".toList, ["a.ts".toList], "const x=1;".toList, "ts".toList, true⟩,
        ⟨"b.ts".toList, ["b.ts".toList], "const y=2;".toList, "ts".toList, true⟩] := by
  constructor <;> rfl

/-- C2: growing the buffer never changes already-closed records: for every
buffer `B`, appended suffix `S` and streaming flags, the complete records
parsed from `B` form a prefix of the complete records parsed from
`B ++ S` — identical name, path, content and `isComplete = true` at the
same positions; with `S = []` this also gives byte-identical results for
repeated parses of the same buffer. -/
theorem closedRecordsStableUnderAppend (B S : List Char) (s1 s2 : Bool) :
    (parseFiles B s1).filter (fun f => f.isComplete) <+:
      (parseFiles (B ++ S) s2).filter (fun f => f.isComplete) := by
  rw [parseFiles_filter_complete, parseFiles_filter_complete]
  obtain ⟨w, hw⟩ := scanBuf_isPre B S
  exact ⟨w.map (fun p => mkComplete p.1 p.2), by rw [← List.map_append, hw]⟩

/-- C3 (code bug): after re-parsing a buffer that extends the selected
file `b.ts`, the component still holds the stale `ParsedFile` object, so
the shown content is the old `\nconst y=2` even though the new parse
carries `const y=22;`; and when the selected path vanishes from a later
parse, the active file is not reset to the first file — it still names
`b.ts` while the parsed list holds only `c.ts`. -/
theorem activeFileStaleOnReparse :
    (shownContent
        (parseEffect "<file name=\"b.ts\">\nconst y=22;\n</file>".toList true
          (parseEffect "<file name=\"b.ts\">\nconst y=2".toList true ⟨[], none⟩)) =
      some "\nconst y=2".toList) ∧
    ((parseFiles "<file name=\"b.ts\">\nconst y=22;\n</file>".toList true).map
        (fun f => f.content) = ["const y=22;".toList]) ∧
    ((parseEffect "<file name=\"c.ts\">z</file>".toList false
        (parseEffect "<file name=\"b.ts\">\nconst y=22;\n</file>".toList true
          (parseEffect "<file name=\"b.ts\">\nconst y=2".toList true
            ⟨[], none⟩))).activeFile.map (fun f => f.name) =
      some "b.ts".toList) ∧
    ((parseEffect "<file name=\"c.ts\">z</file>".toList false
        (parseEffect "<file name=\"b.ts\">\nconst y=22;\n</file>".toList true
          (parseEffect "<file name=\"b.ts\">\nconst y=2".toList true
            ⟨[], none⟩))).files.map (fun f => f.name) = ["c.ts".toList]) := by
  refine ⟨rfl, rfl, rfl, rfl⟩

/-- C4 (counterexample): a buffer with two complete records sharing the
path `a.ts` parses to two separate entries — the later content does not
replace the earlier one, so the list does not have at most one entry per
path. -/
theorem duplicatePathTwoEntries :
    ((parseFiles "<file name=\"a.ts\">x</file><file name=\"a.ts\">y</file>".toList false).map
        (fun f => (f.name, f.content)) =
      [("a.ts".toList, "x".toList), ("a.ts".toList, "y".toList)]) ∧
    ((parseFiles "<file name=\"a.ts\">x</file><file name=\"a.ts\">y</file>".toList false).filter
        (fun f => decide (f.name = "a.ts".toList))).length = 2 := by
  refine ⟨rfl, rfl⟩

/-- C5 (counterexample): the path `README` contains no `'.'`, yet its
language tag is the whole path `README`, not the `txt` fallback the claim
requires. -/
theorem noDotLanguageIsWholePath :
    ((parseFiles "<file name=\"README\">hi</file>".toList false).map
        (fun f => f.language) = ["README".toList]) ∧
    ('.' ∉ "README".toList) ∧ ("README".toList ≠ "txt".toList) := by
  refine ⟨rfl, by decide, by decide⟩

/-- C6: the zip entries added by `addFilesFromContent` are exactly the
complete records the code view displays for a fully streamed buffer
(streaming flag off), folder-prefixed: both sides run the same
`fileRegex` scan with trimmed bodies. -/
theorem exportMatchesViewerExtraction (folder raw : List Char) :
    (addFilesFromContent folder raw).2 =
      (parseFiles raw false).map (fun f => (folder ++ '/' :: f.name, f.content)) := by
  by_cases hr : raw = []
  · subst hr; rfl
  · simp only [addFilesFromContent, parseFiles, if_neg hr]
    rw [execLoop_eq_scanMatches]
    simp only [Bool.false_eq_true, if_false, List.map_map, scanBuf]
    rfl

/-- C7 (counterexample): a provider failure inside `generateModuleCode`
does not reject — it resolves successfully with an error-comment string,
so no error reaches the caller's catch path. -/
theorem moduleErrorResolvesOk :
    generateModuleCode "key".toList "frontend".toList
        (ProviderResult.err "network down".toList) =
      Except.ok "// Error generating frontend code. Please try again. \n// network down".toList := by
  rfl

/-- C7 (amended): when the API key is present and the provider call
fails, `generateModuleCode` catches the error and resolves with the
string `// Error generating <module> code. Please try again. \n// <error>`
— a fulfilled result, never a rejection. -/
theorem moduleErrorCaughtAsResolvedString (apiKey moduleType e : List Char)
    (hk : apiKey ≠ []) :
    generateModuleCode apiKey moduleType (ProviderResult.err e) =
      Except.ok ("// Error generating ".toList ++ moduleType ++
        " code. Please try again. \n// ".toList ++ e) := by
  simp [generateModuleCode, hk]

theorem moduleErrorCaughtAsResolvedStringWitness :
    "key".toList ≠ ([] : List Char) ∧
      generateModuleCode "key".toList "backend".toList
          (ProviderResult.err "boom".toList) =
        Except.ok ("// Error generating ".toList ++ "backend".toList ++
          " code. Please try again. \n// ".toList ++ "boom".toList) :=
  ⟨by decide,
    moduleErrorCaughtAsResolvedString "key".toList "backend".toList
      "boom".toList (by decide)⟩

/-- C9 (counterexample): after two preview bundling passes, two blob
resources are live — more than the claimed at-most-one. -/
theorem twoPassesTwoLiveBlobs :
    (liveUrls (previewPasses 2)).length = 2 ∧
      ¬ (liveUrls (previewPasses 2)).length ≤ 1 := by
  refine ⟨rfl, by decide⟩

/-- C9 (amended): `generatePreview` never revokes a blob URL, so after
`n` bundling passes all `n` created blob resources are live — they
accumulate without bound across preview toggles. -/
theorem previewBlobsNeverReleased (n : Nat) :
    (previewPasses n).revokedUrls = [] ∧
      (liveUrls (previewPasses n)).length = n := by
  refine ⟨previewPasses_revoked n, ?_⟩
  rw [liveUrls_of_no_revoked (previewPasses_revoked n)]
  exact previewPasses_created_length n

/-- C10: for every non-null blueprint the export writes the entry
`<project-folder>/blueprint.json` holding the serialized blueprint,
whatever the three modules contain (tagged files, guide fallback, or
nothing). -/
theorem exportAlwaysContainsBlueprintJson
    (appName blueprintJson frontendCode backendCode deploymentGuide : List Char) :
    (safeName appName ++ '/' :: "blueprint.json".toList, blueprintJson) ∈
      handleExport appName blueprintJson frontendCode backendCode deploymentGuide := by
  unfold handleExport
  simp [List.mem_append]

/-- C5 (amended): for every parsed file, the language tag is the last
component of the path split at `'.'`: the substring after the final `'.'`
when the path contains one (with the `txt` fallback exactly when that
substring is empty, i.e. the path ends in `'.'`), and the whole path —
not `txt` — when the path contains no `'.'` at all. -/
theorem languageTagAmended (B : List Char) (strm : Bool) (f : ParsedFile)
    (hf : f ∈ parseFiles B strm) :
    f.language =
      if '.' ∈ f.name then
        (if afterLastDot f.name = [] then "txt".toList else afterLastDot f.name)
      else f.name := by
  obtain ⟨hl, hne⟩ := mem_parseFiles hf
  rw [hl]
  simp only [languageOf, splitOnChar_getLast f.name]
  by_cases hmem : '.' ∈ f.name
  · rw [if_pos hmem]
  · rw [if_neg hmem, afterLastDot_of_not_mem hmem, if_neg hne]

theorem languageTagAmendedWitness :
    (mkComplete "src/README".toList "hi".toList).language =
      if '.' ∈ (mkComplete "src/README".toList "hi".toList).name then
        (if afterLastDot (mkComplete "src/README".toList "hi".toList).name = []
          then "txt".toList
          else afterLastDot (mkComplete "src/README".toList "hi".toList).name)
      else (mkComplete "src/README".toList "hi".toList).name :=
  languageTagAmended "<file name=\"src/README\">hi</file>".toList false
    (mkComplete "src/README".toList "hi".toList) (by decide)

/-- C4 (amended): when two complete records share the same path, the
parsed list keeps one entry per record occurrence in buffer order —
duplicates are preserved, the later content does not replace the earlier
entry — so the list has two entries for the shared path. -/
theorem duplicatePathKeepsBothRecords (nm c1 c2 : List Char)
    (h1 : nm ≠ []) (h2 : '"' ∉ nm) (h3 : '<' ∉ c1) (h4 : '<' ∉ c2) :
    parseFiles (tagRecord nm c1 ++ tagRecord nm c2) false =
      [mkComplete nm c1, mkComplete nm c2] ∧
    ((parseFiles (tagRecord nm c1 ++ tagRecord nm c2) false).filter
        (fun f => decide (f.name = nm))).length = 2 := by
  have hb := scanBuf_two_records h1 h2 h3 h1 h2 h4
  have hne : tagRecord nm c1 ++ tagRecord nm c2 ≠ [] := by
    intro hcontra
    rcases List.append_eq_nil.1 hcontra with ⟨ha, _⟩
    exact tagRecord_ne_nil nm c1 ha
  have hparse : parseFiles (tagRecord nm c1 ++ tagRecord nm c2) false =
      [mkComplete nm c1, mkComplete nm c2] := by
    simp only [parseFiles, if_neg hne, Bool.false_eq_true, if_false, hb]
    rfl
  refine ⟨hparse, ?_⟩
  rw [hparse]
  have hd : decide ((mkComplete nm c1).name = nm) = true := by
    simp [mkComplete]
  have hd2 : decide ((mkComplete nm c2).name = nm) = true := by
    simp [mkComplete]
  simp [List.filter_cons, hd, hd2]

theorem duplicatePathKeepsBothRecordsWitness :
    parseFiles (tagRecord "a.ts".toList "x".toList ++
        tagRecord "a.ts".toList "y".toList) false =
      [mkComplete "a.ts".toList "x".toList, mkComplete "a.ts".toList "y".toList] ∧
    ((parseFiles (tagRecord "a.ts".toList "x".toList ++
        tagRecord "a.ts".toList "y".toList) false).filter
        (fun f => decide (f.name = "a.ts".toList))).length = 2 :=
  duplicatePathKeepsBothRecords "a.ts".toList "x".toList "y".toList
    (by decide) (by decide) (by decide) (by decide)

theorem jsDedupAux_mem {α : Type} [DecidableEq α] {x : α} :
    ∀ {seen l : List α}, x ∈ jsDedupAux seen l ↔ x ∈ l ∧ x ∉ seen := by
  intro seen l
  induction l generalizing seen with
  | nil => simp [jsDedupAux]
  | cons a l ih =>
    simp only [jsDedupAux]
    by_cases ha : a ∈ seen
    · rw [if_pos ha, ih]
      constructor
      · rintro ⟨h1, h2⟩
        exact ⟨List.mem_cons_of_mem a h1, h2⟩
      · rintro ⟨h1, h2⟩
        rcases List.mem_cons.1 h1 with h3 | h3
        · subst h3
          exact absurd ha h2
        · exact ⟨h3, h2⟩
    · rw [if_neg ha]
      constructor
      · intro h1
        rcases List.mem_cons.1 h1 with h3 | h3
        · subst h3
          exact ⟨List.mem_cons_self x l, ha⟩
        · obtain ⟨h4, h5⟩ := ih.1 h3
          exact ⟨List.mem_cons_of_mem a h4,
            fun h6 => h5 (List.mem_cons_of_mem a h6)⟩
      · rintro ⟨h1, h2⟩
        rcases List.mem_cons.1 h1 with h3 | h3
        · subst h3
          exact List.mem_cons_self x _
        · by_cases hxa : x = a
          · subst hxa
            exact List.mem_cons_self x _
          · refine List.mem_cons_of_mem a (ih.2 ⟨h3, fun h6 => ?_⟩)
            rcases List.mem_cons.1 h6 with h7 | h7
            · exact hxa h7
            · exact h2 h7

theorem jsDedupAux_nodup {α : Type} [DecidableEq α] :
    ∀ (seen l : List α), (jsDedupAux seen l).Nodup := by
  intro seen l
  induction l generalizing seen with
  | nil => exact List.nodup_nil
  | cons a l ih =>
    simp only [jsDedupAux]
    by_cases ha : a ∈ seen
    · rw [if_pos ha]
      exact ih seen
    · rw [if_neg ha]
      refine List.nodup_cons.2 ⟨?_, ih (a :: seen)⟩
      intro hmem
      exact (jsDedupAux_mem.1 hmem).2 (List.mem_cons_self a seen)

theorem jsDedupAux_congr {α : Type} [DecidableEq α] :
    ∀ {s1 s2 l : List α}, (∀ x, x ∈ s1 ↔ x ∈ s2) →
      jsDedupAux s1 l = jsDedupAux s2 l := by
  intro s1 s2 l
  induction l generalizing s1 s2 with
  | nil => intro _; rfl
  | cons a l ih =>
    intro h
    simp only [jsDedupAux]
    by_cases ha : a ∈ s1
    · rw [if_pos ha, if_pos ((h a).1 ha)]
      exact ih h
    · rw [if_neg ha, if_neg (fun hh => ha ((h a).2 hh))]
      refine congrArg (List.cons a) (ih (fun x => ?_))
      simp only [List.mem_cons]
      rw [h x]

theorem jsDedupAux_append {α : Type} [DecidableEq α] :
    ∀ (l1 l2 seen : List α),
      jsDedupAux seen (l1 ++ l2) =
        jsDedupAux seen l1 ++ jsDedupAux (l1 ++ seen) l2 := by
  have unfold_cons : ∀ (s : List α) (b : α) (l : List α),
      jsDedupAux s (b :: l) =
        if b ∈ s then jsDedupAux s l else b :: jsDedupAux (b :: s) l :=
    fun _ _ _ => rfl
  intro l1
  induction l1 with
  | nil =>
    intro l2 seen
    simp [jsDedupAux]
  | cons a l1 ih =>
    intro l2 seen
    rw [List.cons_append, unfold_cons seen a (l1 ++ l2), unfold_cons seen a l1]
    by_cases ha : a ∈ seen
    · rw [if_pos ha, if_pos ha, ih l2 seen]
      congr 1
      apply jsDedupAux_congr
      intro x
      simp only [List.cons_append, List.mem_cons, List.mem_append]
      constructor
      · intro h1
        rcases h1 with h2 | h3
        · exact Or.inr (Or.inl h2)
        · exact Or.inr (Or.inr h3)
      · intro h1
        rcases h1 with h2 | h3 | h4
        · subst h2
          exact Or.inr ha
        · exact Or.inl h3
        · exact Or.inr h4
    · rw [if_neg ha, if_neg ha, ih l2 (a :: seen), List.cons_append]
      congr 2
      apply jsDedupAux_congr
      intro x
      simp only [List.cons_append, List.mem_cons, List.mem_append]
      tauto

theorem pairwise_of_forall_mem {α : Type} {R : α → α → Prop} :
    ∀ {l : List α}, (∀ x ∈ l, ∀ y ∈ l, R x y) → l.Pairwise R := by
  intro l
  induction l with
  | nil => intro _; exact List.Pairwise.nil
  | cons a l ih =>
    intro h
    refine List.Pairwise.cons ?_ (ih ?_)
    · intro y hy
      exact h a (List.mem_cons_self a l) y (List.mem_cons_of_mem a hy)
    · intro x hx y hy
      exact h x (List.mem_cons_of_mem a hx) y (List.mem_cons_of_mem a hy)

theorem pairwise_rank_dedup {α : Type} [DecidableEq α]
    (rank : α → Nat) (B0 B1 B2 : List α) (a m : α)
    (h0 : ∀ x ∈ B0, rank x = 0)
    (h1 : ∀ x ∈ B1, x ∉ B0 → rank x = 1)
    (h2 : ∀ x ∈ B2, x ∉ B0 → x ∉ B1 → rank x = 2)
    (hra : rank a = 3)
    (hrm : m ∉ B0 → m ∉ B1 → m ∉ B2 → m ≠ a → rank m = 4) :
    (jsDedup (B0 ++ B1 ++ B2 ++ [a, m])).Pairwise
      (fun x y => rank x ≤ rank y) := by
  have uc : ∀ (s : List α) (b : α) (l : List α),
      jsDedupAux s (b :: l) =
        if b ∈ s then jsDedupAux s l else b :: jsDedupAux (b :: s) l :=
    fun _ _ _ => rfl
  rw [show jsDedup (B0 ++ B1 ++ B2 ++ [a, m]) =
    jsDedupAux [] (B0 ++ B1 ++ B2 ++ [a, m]) from rfl]
  rw [jsDedupAux_append (B0 ++ B1 ++ B2) [a, m] [],
    jsDedupAux_append (B0 ++ B1) B2 [], jsDedupAux_append B0 B1 []]
  have hd0 : ∀ x ∈ jsDedupAux ([] : List α) B0, rank x = 0 :=
    fun x hx => h0 x (jsDedupAux_mem.1 hx).1
  have hd1 : ∀ x ∈ jsDedupAux (B0 ++ []) B1, rank x = 1 := by
    intro x hx
    obtain ⟨hx1, hx2⟩ := jsDedupAux_mem.1 hx
    exact h1 x hx1 (fun hb => hx2 (by simp [hb]))
  have hd2 : ∀ x ∈ jsDedupAux ((B0 ++ B1) ++ []) B2, rank x = 2 := by
    intro x hx
    obtain ⟨hx1, hx2⟩ := jsDedupAux_mem.1 hx
    exact h2 x hx1 (fun hb => hx2 (by simp [hb])) (fun hb => hx2 (by simp [hb]))
  have hd3 : ∀ x ∈ jsDedupAux (((B0 ++ B1) ++ B2) ++ []) [a, m],
      3 ≤ rank x := by
    intro x hx
    obtain ⟨hx1, hx2⟩ := jsDedupAux_mem.1 hx
    rcases List.mem_cons.1 hx1 with h | h
    · rw [h, hra]
    · rw [List.mem_singleton.1 h]
      by_cases hma : m = a
      · rw [hma, hra]
      · have h4 : rank m = 4 := hrm
          (fun hb => (List.mem_singleton.1 h ▸ hx2) (by simp [hb]))
          (fun hb => (List.mem_singleton.1 h ▸ hx2) (by simp [hb]))
          (fun hb => (List.mem_singleton.1 h ▸ hx2) (by simp [hb]))
          hma
        rw [h4]
        omega
  have hd3pw : (jsDedupAux (((B0 ++ B1) ++ B2) ++ []) [a, m]).Pairwise
      (fun x y => rank x ≤ rank y) := by
    by_cases ha3 : a ∈ ((B0 ++ B1) ++ B2) ++ []
    · rw [uc, if_pos ha3, uc]
      by_cases hm3 : m ∈ ((B0 ++ B1) ++ B2) ++ []
      · rw [if_pos hm3]
        exact List.Pairwise.nil
      · rw [if_neg hm3]
        exact List.pairwise_singleton _ m
    · rw [uc, if_neg ha3, uc]
      by_cases hm3 : m ∈ a :: (((B0 ++ B1) ++ B2) ++ [])
      · rw [if_pos hm3]
        exact List.pairwise_singleton _ a
      · rw [if_neg hm3]
        have hmseen : m ∉ ((B0 ++ B1) ++ B2) ++ [] :=
          fun hb => hm3 (List.mem_cons_of_mem a hb)
        have hma : m ≠ a :=
          fun he => hm3 (by rw [he]; exact List.mem_cons_self a _)
        have h4 : rank m = 4 := hrm
          (fun hb => hmseen (by simp [hb]))
          (fun hb => hmseen (by simp [hb]))
          (fun hb => hmseen (by simp [hb]))
          hma
        refine List.Pairwise.cons ?_ (List.pairwise_singleton _ m)
        intro y hy
        rw [List.mem_singleton.1 hy, hra, h4]
        omega
  refine List.pairwise_append.2
    ⟨List.pairwise_append.2
      ⟨List.pairwise_append.2 ⟨?_, ?_, ?_⟩, ?_, ?_⟩, ?_, ?_⟩
  · exact pairwise_of_forall_mem
      (fun x hx y _ => by rw [hd0 x hx]; exact Nat.zero_le _)
  · exact pairwise_of_forall_mem
      (fun x hx y hy => by rw [hd1 x hx, hd1 y hy])
  · intro x hx y _
    rw [hd0 x hx]
    exact Nat.zero_le _
  · exact pairwise_of_forall_mem
      (fun x hx y hy => by rw [hd2 x hx, hd2 y hy])
  · intro x hx y hy
    rw [hd2 y hy]
    rcases List.mem_append.1 hx with h | h
    · rw [hd0 x h]
      omega
    · rw [hd1 x h]
      omega
  · exact hd3pw
  · intro x hx y hy
    have h3 := hd3 y hy
    rcases List.mem_append.1 hx with h | h
    · rcases List.mem_append.1 h with h5 | h6
      · rw [hd0 x h5]
        omega
      · rw [hd1 x h6]
        omega
    · rw [hd2 x h]
      omega

/-- C8 (amended): for every file set the bundler accepts (an entry file
and the root component are found), the concatenation list is the
first-occurrence deduplication of: utils/types-matching files, then
`components/` files, then `pages/` files, then the root component, then
the entry file.  It has no duplicates, contains the root component and the
entry file, draws only from the file set, is ordered by category rank —
but files matching none of the categories (other than the root component
and entry file) are omitted from the bundle, not included. -/
theorem previewOrderAmended (files : List (Nat × ParsedFile))
    (m a : Nat × ParsedFile)
    (hm : findMainFile files = some m) (ha : findAppFile files = some a) :
    ∃ L, previewOrder files = some L ∧
      L.Nodup ∧ a ∈ L ∧ m ∈ L ∧
      (∀ x ∈ L, x ∈ files) ∧
      (∀ x ∈ files, isUtilsTypes x.2 = false → isComponents x.2 = false →
        isPages x.2 = false → x ≠ a → x ≠ m → x ∉ L) ∧
      L.Pairwise (fun x y => rankOf a x ≤ rankOf a y) := by
  have hne : files ≠ [] := by
    intro hc
    subst hc
    simp [findMainFile] at hm
  have hamem : a ∈ files := List.mem_of_find?_eq_some ha
  have hmmem : m ∈ files := List.mem_of_find?_eq_some hm
  have hapred := List.find?_some ha
  have haname : a.2.name = "src/App.tsx".toList ∨ a.2.name = "App.tsx".toList := by
    simp only [findAppFile, Bool.or_eq_true, decide_eq_true_eq] at hapred
    exact hapred
  have hau : isUtilsTypes a.2 = false := by
    rcases haname with h | h
    · simp only [isUtilsTypes, h]
      decide
    · simp only [isUtilsTypes, h]
      decide
  have hac : isComponents a.2 = false := by
    rcases haname with h | h
    · simp only [isComponents, h]
      decide
    · simp only [isComponents, h]
      decide
  have hap : isPages a.2 = false := by
    rcases haname with h | h
    · simp only [isPages, h]
      decide
    · simp only [isPages, h]
      decide
  refine ⟨jsDedup
      (files.filter (fun f => isUtilsTypes f.2) ++
        files.filter (fun f => isComponents f.2) ++
        files.filter (fun f => isPages f.2) ++ [a, m]),
    ?_, ?_, ?_, ?_, ?_, ?_, ?_⟩
  · simp only [previewOrder, if_neg hne, hm, ha]
  · exact jsDedupAux_nodup [] _
  · exact jsDedupAux_mem.2 ⟨by simp, by simp⟩
  · exact jsDedupAux_mem.2 ⟨by simp, by simp⟩
  · intro x hx
    have hx2 := (jsDedupAux_mem.1 hx).1
    rcases List.mem_append.1 hx2 with h1 | h2
    · rcases List.mem_append.1 h1 with h3 | h4
      · rcases List.mem_append.1 h3 with h5 | h6
        · exact (List.mem_filter.1 h5).1
        · exact (List.mem_filter.1 h6).1
      · exact (List.mem_filter.1 h4).1
    · rcases List.mem_cons.1 h2 with h5 | h6
      · rw [h5]
        exact hamem
      · rw [List.mem_singleton.1 h6]
        exact hmmem
  · intro x hxf hu hc hp hxa hxm hx
    have hx2 := (jsDedupAux_mem.1 hx).1
    rcases List.mem_append.1 hx2 with h1 | h2
    · rcases List.mem_append.1 h1 with h3 | h4
      · rcases List.mem_append.1 h3 with h5 | h6
        · have := (List.mem_filter.1 h5).2
          rw [hu] at this
          cases this
        · have := (List.mem_filter.1 h6).2
          rw [hc] at this
          cases this
      · have := (List.mem_filter.1 h4).2
        rw [hp] at this
        cases this
    · rcases List.mem_cons.1 h2 with h5 | h6
      · exact hxa h5
      · exact hxm (List.mem_singleton.1 h6)
  · refine pairwise_rank_dedup (rankOf a) _ _ _ a m ?_ ?_ ?_ ?_ ?_
    · intro x hx
      have hxu := (List.mem_filter.1 hx).2
      simp [rankOf, hxu]
    · intro x hx hxn
      have hxc := (List.mem_filter.1 hx).2
      have hxf := (List.mem_filter.1 hx).1
      have hxu : isUtilsTypes x.2 = false := by
        cases hval : isUtilsTypes x.2 with
        | false => rfl
        | true => exact absurd (List.mem_filter.2 ⟨hxf, hval⟩) hxn
      simp [rankOf, hxu, hxc]
    · intro x hx hxn0 hxn1
      have hxp := (List.mem_filter.1 hx).2
      have hxf := (List.mem_filter.1 hx).1
      have hxu : isUtilsTypes x.2 = false := by
        cases hval : isUtilsTypes x.2 with
        | false => rfl
        | true => exact absurd (List.mem_filter.2 ⟨hxf, hval⟩) hxn0
      have hxc : isComponents x.2 = false := by
        cases hval : isComponents x.2 with
        | false => rfl
        | true => exact absurd (List.mem_filter.2 ⟨hxf, hval⟩) hxn1
      simp [rankOf, hxu, hxc, hxp]
    · simp [rankOf, hau, hac, hap]
    · intro hn0 hn1 hn2 hma
      have hmu : isUtilsTypes m.2 = false := by
        cases hval : isUtilsTypes m.2 with
        | false => rfl
        | true => exact absurd (List.mem_filter.2 ⟨hmmem, hval⟩) hn0
      have hmc : isComponents m.2 = false := by
        cases hval : isComponents m.2 with
        | false => rfl
        | true => exact absurd (List.mem_filter.2 ⟨hmmem, hval⟩) hn1
      have hmp : isPages m.2 = false := by
        cases hval : isPages m.2 with
        | false => rfl
        | true => exact absurd (List.mem_filter.2 ⟨hmmem, hval⟩) hn2
      simp [rankOf, hmu, hmc, hmp, hma]

theorem previewOrderAmendedWitness :
    ∃ L, previewOrder
        [(0, mkComplete "App.tsx".toList "a".toList),
          (1, mkComplete "src/main.tsx".toList "m".toList)] = some L ∧
      L.Nodup ∧
      (0, mkComplete "App.tsx".toList "a".toList) ∈ L ∧
      (1, mkComplete "src/main.tsx".toList "m".toList) ∈ L ∧
      (∀ x ∈ L, x ∈
        [(0, mkComplete "App.tsx".toList "a".toList),
          (1, mkComplete "src/main.tsx".toList "m".toList)]) ∧
      (∀ x ∈
          [(0, mkComplete "App.tsx".toList "a".toList),
            (1, mkComplete "src/main.tsx".toList "m".toList)],
        isUtilsTypes x.2 = false → isComponents x.2 = false →
        isPages x.2 = false →
        x ≠ (0, mkComplete "App.tsx".toList "a".toList) →
        x ≠ (1, mkComplete "src/main.tsx".toList "m".toList) → x ∉ L) ∧
      L.Pairwise (fun x y =>
        rankOf (0, mkComplete "App.tsx".toList "a".toList) x ≤
          rankOf (0, mkComplete "App.tsx".toList "a".toList) y) :=
  previewOrderAmended
    [(0, mkComplete "App.tsx".toList "a".toList),
      (1, mkComplete "src/main.tsx".toList "m".toList)]
    (1, mkComplete "src/main.tsx".toList "m".toList)
    (0, mkComplete "App.tsx".toList "a".toList)
    (by decide) (by decide)

/-- C8 (counterexample): a file set containing `package.json` together
with the root component and entry file is accepted by the bundler, yet
`package.json` — a remaining file of the set — is absent from the
concatenation list, contradicting "every remaining file of the set
included exactly once". -/
theorem previewOrderDropsUncategorized :
    previewOrder
        [(0, mkComplete "App.tsx".toList "a".toList),
          (1, mkComplete "src/main.tsx".toList "m".toList),
          (2, mkComplete "package.json".toList "p".toList)] =
      some [(0, mkComplete "App.tsx".toList "a".toList),
        (1, mkComplete "src/main.tsx".toList "m".toList)] ∧
    (2, mkComplete "package.json".toList "p".toList) ∉
      [(0, mkComplete "App.tsx".toList "a".toList),
        (1, mkComplete "src/main.tsx".toList "m".toList)] := by
  refine ⟨by decide, by decide⟩

end AppSpec
